import Mathlib

/-
Verification development for the scikit-decide AO* solver
(src/skdecide/hub/solver/aostar/aostar.py).

The Python file is a thin wrapper around the C++ engine `_AOStarSolver_`,
whose source is not part of this repository snapshot.  The wrapper logic
(implicit re-solve in `_get_next_action`, random-action fallback,
`_get_utility` pass-through, `_reset`) is embedded directly from the
Python source.  The engine itself (AND/OR search graph, frontier,
tip-expansion loop, value propagation, policy extraction) is modelled
from the specification, as noted in each definition's doc comment.

States and actions are embedded as natural numbers; costs, probabilities
and the discount factor as rationals; the value domain is the rationals
extended with infinity (dead-end value).  Value propagation to fixpoint
is modelled denotationally: a node's value is recomputed over the
current graph by a fuel-bounded Bellman evaluation, which on an acyclic
graph coincides with the converged propagated values.
-/

namespace AO

/-- Extended value domain. Modelled from the spec: a scalar cost (lower is
better), with infinity used as the dead-end value. -/
inductive EValue where
  | fin (q : ℚ)
  | inf
deriving DecidableEq, Repr

/-- Addition on extended values; infinity is absorbing. -/
def EValue.add : EValue → EValue → EValue
  | .fin a, .fin b => .fin (a + b)
  | _, _ => .inf

/-- Scaling of an extended value by a rational factor (probability or
discount); scaling infinity by zero yields zero. -/
def EValue.mulQ (c : ℚ) : EValue → EValue
  | .fin a => .fin (c * a)
  | .inf => if c = 0 then .fin 0 else .inf

/-- Boolean order on extended values: finite values compare as rationals
and every value is below infinity. -/
def EValue.ble : EValue → EValue → Bool
  | .fin a, .fin b => decide (a ≤ b)
  | _, .inf => true
  | .inf, .fin _ => false

/-- Action hyperedge. Modelled from the spec: action identifier, expected
immediate cost, and the list of (outcome state, probability) pairs. -/
structure Edge where
  action : Nat
  costExp : ℚ
  outcomes : List (Nat × ℚ)
deriving DecidableEq, Repr

/-- State node of the search graph. Modelled from the spec: the state
value, the `expanded` flag, the owned outgoing hyperedges, and the weak
back-references to parent states. The current value estimate and the
`solved` flag are recomputed denotationally (valueF, solvedF) rather than
stored. -/
structure Node where
  state : Nat
  expanded : Bool
  edges : List Edge
  parents : List Nat
deriving DecidableEq, Repr

/-- The AND/OR search graph: the list of state nodes in insertion order. -/
structure Graph where
  nodes : List Node
deriving DecidableEq, Repr

/-- First node of the list carrying the given state, if any. -/
def findNode (s : Nat) : List Node → Option Node
  | [] => none
  | n :: ns => if n.state = s then some n else findNode s ns

/-- Graph lookup by state equality. -/
def Graph.find (g : Graph) (s : Nat) : Option Node := findNode s g.nodes

/-- The states present in the graph, in insertion order. -/
def Graph.states (g : Graph) : List Nat := g.nodes.map (fun n => n.state)

/-- Extend a node's parent set with an optional new parent state. -/
def addParent (par : Option Nat) (n : Node) : Node :=
  match par with
  | none => n
  | some p => if n.parents.contains p then n else { n with parents := n.parents ++ [p] }

/-- Modelled from the spec (Search Graph contract): return the existing
node for an equal state — extending its parent set — or create a fresh
unexpanded node; never creates a duplicate node for an equal state. -/
def Graph.getOrCreate (g : Graph) (s : Nat) (par : Option Nat) : Graph :=
  match g.find s with
  | some _ => ⟨g.nodes.map (fun n => if n.state = s then addParent par n else n)⟩
  | none => ⟨g.nodes ++ [⟨s, false, [], par.toList⟩]⟩

/-- Trace events instrumenting the expansion loop: callback invocations
and tip expansions, tagged with the pop index inside the current batch. -/
inductive TraceEv where
  | callbackInvoked (popIdx : Nat)
  | tipExpanded (popIdx : Nat)
deriving DecidableEq, Repr

/-- Solver state: the search graph plus the instrumentation trace. -/
structure SolverState where
  graph : Graph
  trace : List TraceEv
deriving DecidableEq, Repr

/-- Solver configuration and domain capability set. Modelled from the
spec: applicable-action enumeration, enumerable transition outcomes as
(next state, probability, cost) triples, goal test, heuristic estimator,
discount factor, `max_tip_expansions`, iteration fuel, the external
callback, and a fixed sample of the domain's action space standing in
for `get_action_space().sample()`. -/
structure AOConfig where
  applicable : Nat → List Nat
  outcomes : Nat → Nat → List (Nat × ℚ × ℚ)
  isGoal : Nat → Bool
  heuristic : Nat → ℚ
  discount : ℚ
  maxTip : Nat
  fuel : Nat
  callback : SolverState → Bool
  sampleAction : Nat

/-- Expected immediate cost of an enumerable transition:
sum of probability-weighted outcome costs. -/
def edgeCost (outs : List (Nat × ℚ × ℚ)) : ℚ :=
  (outs.map (fun o => o.2.1 * o.2.2)).sum

/-- Modelled from the spec (Expand step): the hyperedges created when a
state is expanded, one per applicable action, each carrying the expected
cost and the (outcome state, probability) pairs. -/
def buildEdges (cfg : AOConfig) (s : Nat) : List Edge :=
  (cfg.applicable s).map
    (fun a => ⟨a, edgeCost (cfg.outcomes s a), (cfg.outcomes s a).map (fun o => (o.1, o.2.1))⟩)

/-- Probability-weighted sum of outcome values. -/
def expSum (V : Nat → EValue) : List (Nat × ℚ) → EValue
  | [] => .fin 0
  | o :: os => (EValue.mulQ o.2 (V o.1)).add (expSum V os)

/-- Q-value of a hyperedge under a valuation of states:
expected cost plus discounted expectation of the outcome values. -/
def qval (cfg : AOConfig) (V : Nat → EValue) (e : Edge) : EValue :=
  (EValue.fin e.costExp).add (EValue.mulQ cfg.discount (expSum V e.outcomes))

/-- First element of the list attaining the minimal key; ties are broken
in favour of the earliest element (FIFO among equal values). -/
def firstMinBy {α : Type} (f : α → EValue) : List α → Option α
  | [] => none
  | x :: xs =>
    match firstMinBy f xs with
    | none => some x
    | some b => if (f x).ble (f b) then some x else some b

/-- Minimal Q-value over a list of hyperedges (infinity if empty). -/
def minQ (cfg : AOConfig) (V : Nat → EValue) (es : List Edge) : EValue :=
  match firstMinBy (qval cfg V) es with
  | none => .inf
  | some e => qval cfg V e

/-- Modelled from the spec (value propagation to fixpoint): the current
value of a state over the graph.  Goal states are worth 0; unexplored or
unexpanded states are worth their heuristic estimate; an expanded state
with no hyperedge is a dead end worth infinity; otherwise the value is
the minimal Q-value over its hyperedges, recursing on fuel. -/
def valueF (cfg : AOConfig) (g : Graph) : Nat → Nat → EValue
  | 0, s =>
    if cfg.isGoal s then .fin 0
    else
      match g.find s with
      | none => .fin (cfg.heuristic s)
      | some n => if n.expanded && n.edges.isEmpty then .inf else .fin (cfg.heuristic s)
  | fuel + 1, s =>
    if cfg.isGoal s then .fin 0
    else
      match g.find s with
      | none => .fin (cfg.heuristic s)
      | some n =>
        if n.expanded then
          if n.edges.isEmpty then .inf
          else minQ cfg (valueF cfg g fuel) n.edges
        else .fin (cfg.heuristic s)

/-- Modelled from the spec: a state is solved when it is a goal, a dead
end (expanded with no hyperedge), or expanded with every outcome of its
current best hyperedge solved. -/
def solvedF (cfg : AOConfig) (g : Graph) : Nat → Nat → Bool
  | 0, s =>
    cfg.isGoal s ||
      (match g.find s with
       | none => false
       | some n => n.expanded && n.edges.isEmpty)
  | fuel + 1, s =>
    if cfg.isGoal s then true
    else
      match g.find s with
      | none => false
      | some n =>
        if n.expanded then
          if n.edges.isEmpty then true
          else
            match firstMinBy (qval cfg (valueF cfg g fuel)) n.edges with
            | none => true
            | some e => e.outcomes.all (fun o => solvedF cfg g fuel o.1)
        else false

/-- Default evaluation fuel for a graph: its node count bounds the length
of any repetition-free path. -/
def fuelOf (g : Graph) : Nat := g.nodes.length

/-- The tip nodes: explored but unexpanded non-goal states, in insertion
order. -/
def tips (cfg : AOConfig) (g : Graph) : List Nat :=
  (g.nodes.filter (fun n => !n.expanded && !cfg.isGoal n.state)).map (fun n => n.state)

/-- Modelled from the spec (Frontier contract): remove-and-return the
tip of minimal current value, ties broken by earliest insertion. -/
def popBest (cfg : AOConfig) (g : Graph) : Option Nat :=
  firstMinBy (valueF cfg g (fuelOf g)) (tips cfg g)

/-- Mark a state expanded and record its hyperedges. -/
def Graph.expandNode (g : Graph) (s : Nat) (es : List Edge) : Graph :=
  ⟨g.nodes.map (fun n => if n.state = s then { n with expanded := true, edges := es } else n)⟩

/-- Insert the outcome states of a list of hyperedges as children of `s`. -/
def insertOutcomes (s : Nat) (es : List Edge) (g : Graph) : Graph :=
  es.foldl (fun acc e => e.outcomes.foldl (fun acc2 o => acc2.getOrCreate o.1 (some s)) acc) g

/-- Modelled from the spec (Expand step): expand one tip — query the
applicable actions and transition outcomes, record the hyperedges, mark
the tip expanded, and insert every outcome state via `getOrCreate`. -/
def expandTip (cfg : AOConfig) (g : Graph) (s : Nat) : Graph :=
  let es := buildEdges cfg s
  insertOutcomes s es (g.expandNode s es)

/-- Modelled from the spec (SelectTips): pop up to the requested number
of tips, invoking the external callback before each pop; when the
callback signals stop, return immediately without expanding further.
The pop index within the batch is recorded in the trace. -/
def expandBatchAux (cfg : AOConfig) : Nat → Nat → SolverState → SolverState × Bool
  | _, 0, st => (st, false)
  | i, n + 1, st =>
    match popBest cfg st.graph with
    | none => (st, false)
    | some s =>
      let st1 : SolverState := { st with trace := st.trace ++ [.callbackInvoked i] }
      if cfg.callback st then (st1, true)
      else
        let st2 : SolverState :=
          { graph := expandTip cfg st1.graph s, trace := st1.trace ++ [.tipExpanded i] }
        expandBatchAux cfg (i + 1) n st2

/-- One batch of up to `max_tip_expansions` tip expansions. -/
def expandBatch (cfg : AOConfig) (st : SolverState) : SolverState × Bool :=
  expandBatchAux cfg 0 cfg.maxTip st

/-- Modelled from the spec (outer loop): repeat batches until the root is
solved, the frontier is exhausted, or the callback signals stop. -/
def aoLoop (cfg : AOConfig) (root : Nat) : Nat → SolverState → SolverState
  | 0, st => st
  | fuel + 1, st =>
    if solvedF cfg st.graph (fuelOf st.graph) root || (tips cfg st.graph).isEmpty then st
    else
      match expandBatch cfg st with
      | (st1, true) => st1
      | (st1, false) => aoLoop cfg root fuel st1

/-- Embeds `AOstar._solve_from` (aostar.py): run the AO* loop from the
given root without resetting the graph; the root node is created via
`getOrCreate`, so a previously explored root is reused. -/
def solveFrom (cfg : AOConfig) (st : SolverState) (root : Nat) : SolverState :=
  aoLoop cfg root cfg.fuel { st with graph := st.graph.getOrCreate root none }

/-- The solver state before any solve: empty graph, empty trace. -/
def initSolver : SolverState := ⟨⟨[]⟩, []⟩

/-- Embeds `AOstar._reset` / the engine's `clear()`: drop all nodes and
edges, resetting to the empty graph. -/
def clearSolver (_st : SolverState) : SolverState := initSolver

/-- Embeds `AOstar._is_solution_defined_for`, modelled from the spec's
Policy Extractor contract: true iff the state is a graph node with at
least one recorded best action — i.e. expanded with a nonempty
hyperedge list. -/
def isSolutionDefinedFor (g : Graph) (s : Nat) : Bool :=
  match g.find s with
  | none => false
  | some n => n.expanded && !n.edges.isEmpty

/-- Modelled from the spec: the engine's `get_next_action` — the action
of the best (minimal Q-value) hyperedge of an expanded node, or the
"no action" result otherwise. -/
def coreGetNextAction (cfg : AOConfig) (g : Graph) (s : Nat) : Option Nat :=
  match g.find s with
  | none => none
  | some n =>
    if n.expanded then (firstMinBy (qval cfg (valueF cfg g (fuelOf g))) n.edges).map (fun e => e.action)
    else none

/-- Modelled from the spec: the engine's `get_utility` — the node's
current value, or the "undefined" sentinel if the state is unexplored. -/
def getUtility (cfg : AOConfig) (g : Graph) (s : Nat) : Option EValue :=
  match g.find s with
  | none => none
  | some _ => some (valueF cfg g (fuelOf g) s)

/-- Modelled from the spec: the engine's `get_policy` — each expanded
node with a best action mapped to its (action, value) pair. -/
def getPolicy (cfg : AOConfig) (g : Graph) : List (Nat × Nat × EValue) :=
  g.nodes.filterMap
    (fun n =>
      if n.expanded && !n.edges.isEmpty then
        (firstMinBy (qval cfg (valueF cfg g (fuelOf g))) n.edges).map
          (fun e => (n.state, e.action, valueF cfg g (fuelOf g) n.state))
      else none)

/-- Result of the wrapper's `_get_next_action`: the possibly re-solved
state, the returned action, and whether the random-action warning path
was taken. -/
structure StepResult where
  st : SolverState
  action : Nat
  warned : Bool
deriving DecidableEq, Repr

/-- Embeds `AOstar._get_next_action` (aostar.py lines 177-205): if no
solution is defined for the observation, first trigger a solve rooted at
it; then return the engine's best action, or — printing a warning — a
random action sampled from the domain's action space when the engine
returns none. -/
def wrapperGetNextAction (cfg : AOConfig) (st : SolverState) (obs : Nat) : StepResult :=
  let st1 := if isSolutionDefinedFor st.graph obs then st else solveFrom cfg st obs
  match coreGetNextAction cfg st1.graph obs with
  | some a => ⟨st1, a, false⟩
  | none => ⟨st1, cfg.sampleAction, true⟩

/-- Embeds `AOstar._get_utility` (aostar.py lines 207-220): a plain
pass-through to the engine's `get_utility`, with no implicit re-solve. -/
def wrapperGetUtility (cfg : AOConfig) (st : SolverState) (obs : Nat) : Option EValue :=
  getUtility cfg st.graph obs

/-- Embeds `AOstar.get_nb_explored_states`. -/
def getNbExploredStates (st : SolverState) : Nat := st.graph.nodes.length

/-- Decidable well-formedness of a graph with respect to the domain:
every expanded node's hyperedges are exactly those the domain induces at
its state, every outcome state is itself a graph node, and every
recorded outcome probability is nonnegative. -/
def consistentB (cfg : AOConfig) (g : Graph) : Bool :=
  g.nodes.all
    (fun n =>
      !n.expanded ||
        (n.edges == buildEdges cfg n.state &&
          n.edges.all
            (fun e => e.outcomes.all (fun o => decide (o.1 ∈ g.states) && decide (0 ≤ o.2)))))

/-- The heuristic is admissible on the graph's states with respect to a
candidate optimal cost-to-go function. -/
@[reducible] def admissibleOn (cfg : AOConfig) (g : Graph) (Vstar : Nat → EValue) : Prop :=
  ∀ s ∈ g.states, (EValue.fin (cfg.heuristic s)).ble (Vstar s) = true

/-- The candidate optimal cost-to-go function satisfies the Bellman
equation of the domain on the graph's states: goals cost 0, and any
other state costs the minimal Q-value over its applicable actions. -/
@[reducible] def bellmanOn (cfg : AOConfig) (g : Graph) (Vstar : Nat → EValue) : Prop :=
  ∀ s ∈ g.states,
    if cfg.isGoal s then Vstar s = .fin 0
    else Vstar s = minQ cfg Vstar (buildEdges cfg s)

/-- A batch trace is an alternation of callback invocations each
immediately followed by the expansion it authorised, possibly ending in
a final callback invocation that was answered by a stop signal. -/
def goodBatchTrace : List TraceEv → Bool
  | [] => true
  | [.callbackInvoked _] => true
  | .callbackInvoked i :: .tipExpanded j :: rest => decide (i = j) && goodBatchTrace rest
  | _ => false

/-- Whether a trace fragment ends with a callback invocation. -/
def endsWithCb : List TraceEv → Bool
  | [] => false
  | [.callbackInvoked _] => true
  | [.tipExpanded _] => false
  | _ :: rest => endsWithCb rest

/-- One graph's state list extends another's: nodes are only ever added,
never removed or reordered. -/
def statesExtend (g1 g2 : Graph) : Prop := ∃ l, g2.states = g1.states ++ l

/-- The spec's example scenario as a concrete domain: state 0 reaches
state 1 or state 2 at cost 1, state 1 reaches the goal 3 at cost 1, state
2 reaches the goal 3 at cost 5; zero heuristic, no discounting. -/
def exCfg : AOConfig :=
  { applicable := fun s =>
      if s = 0 then [10, 11] else if s = 1 then [12] else if s = 2 then [13] else []
  , outcomes := fun s a =>
      if s = 0 then (if a = 10 then [(1, 1, 1)] else if a = 11 then [(2, 1, 1)] else [])
      else if s = 1 then (if a = 12 then [(3, 1, 1)] else [])
      else if s = 2 then (if a = 13 then [(3, 1, 5)] else [])
      else []
  , isGoal := fun s => decide (s = 3)
  , heuristic := fun _ => 0
  , discount := 1
  , maxTip := 1
  , fuel := 10
  , callback := fun _ => false
  , sampleAction := 99 }

/-- A concrete domain with a dead end: state 0 reaches state 1, which has
no applicable action; nothing is a goal. -/
def deadCfg : AOConfig :=
  { applicable := fun s => if s = 0 then [10] else []
  , outcomes := fun s a => if s = 0 then (if a = 10 then [(1, 1, 1)] else []) else []
  , isGoal := fun _ => false
  , heuristic := fun _ => 0
  , discount := 1
  , maxTip := 1
  , fuel := 10
  , callback := fun _ => false
  , sampleAction := 7 }

/-- A concrete domain for the lower-bound direction: state 0 reaches the
goal state 1 by one action of cost 5; zero heuristic (admissible). -/
def cexCfg : AOConfig :=
  { applicable := fun s => if s = 0 then [10] else []
  , outcomes := fun s a => if s = 0 then (if a = 10 then [(1, 1, 5)] else []) else []
  , isGoal := fun s => decide (s = 1)
  , heuristic := fun _ => 0
  , discount := 1
  , maxTip := 1
  , fuel := 10
  , callback := fun _ => false
  , sampleAction := 0 }

/-- The true optimal cost-to-go of `cexCfg`. -/
def cexVstar : Nat → EValue :=
  fun s => if s = 0 then .fin 5 else if s = 1 then .fin 0 else .inf

/-- The graph holding only the unexpanded root 0 of `cexCfg`. -/
def cexG : Graph := (Graph.mk []).getOrCreate 0 none

/-- The graph produced by solving `deadCfg` from state 0. -/
def deadG : Graph := (solveFrom deadCfg initSolver 0).graph

/-- A graph holding only the unexpanded non-goal state 1. -/
def gDead1 : Graph := (Graph.mk []).getOrCreate 1 none

/-- A graph holding the two unexpanded non-goal states 1 and 2, inserted
in this order, with equal heuristic values (a tie). -/
def gTie : Graph := ((Graph.mk []).getOrCreate 1 none).getOrCreate 2 none

/-- A domain where every state is a dead end, used to drive batches of
tip expansions; `max_tip_expansions` is 2. -/
def batchCfg : AOConfig :=
  { applicable := fun _ => []
  , outcomes := fun _ _ => []
  , isGoal := fun _ => false
  , heuristic := fun _ => 0
  , discount := 1
  , maxTip := 2
  , fuel := 10
  , callback := fun _ => false
  , sampleAction := 0 }

theorem EValue.ble_refl (a : EValue) : a.ble a = true := by
  cases a <;> simp [EValue.ble]

theorem EValue.ble_inf (a : EValue) : a.ble .inf = true := by
  cases a <;> rfl

theorem EValue.ble_trans : ∀ {a b c : EValue}, a.ble b = true → b.ble c = true → a.ble c = true
  | _, _, .inf, _, _ => EValue.ble_inf _
  | .fin x, .fin y, .fin z, h1, h2 => by
    simp [EValue.ble] at h1 h2 ⊢
    exact le_trans h1 h2
  | .inf, .fin _, .fin _, h1, _ => by simp [EValue.ble] at h1
  | .fin _, .inf, .fin _, _, h2 => by simp [EValue.ble] at h2
  | .inf, .inf, .fin _, _, h2 => by simp [EValue.ble] at h2

theorem EValue.ble_antisymm : ∀ {a b : EValue}, a.ble b = true → b.ble a = true → a = b
  | .fin x, .fin y, h1, h2 => by
    simp [EValue.ble] at h1 h2
    exact congrArg EValue.fin (le_antisymm h1 h2)
  | .inf, .inf, _, _ => rfl
  | .fin _, .inf, _, h2 => by simp [EValue.ble] at h2
  | .inf, .fin _, h1, _ => by simp [EValue.ble] at h1

theorem EValue.ble_total : ∀ (a b : EValue), a.ble b = true ∨ b.ble a = true
  | .fin x, .fin y => by
    simp [EValue.ble]
    exact le_total x y
  | .inf, b => Or.inr (EValue.ble_inf b)
  | a, .inf => Or.inl (EValue.ble_inf a)

theorem EValue.inf_add (a : EValue) : (EValue.inf).add a = .inf := by
  cases a <;> rfl

theorem EValue.add_inf (a : EValue) : a.add .inf = .inf := by
  cases a <;> rfl

theorem EValue.add_ble_add {a b c d : EValue} (h1 : a.ble b = true) (h2 : c.ble d = true) :
    (a.add c).ble (b.add d) = true := by
  cases a <;> cases b <;> cases c <;> cases d <;>
    simp_all [EValue.ble, EValue.add]
  all_goals exact add_le_add h1 h2

theorem EValue.mulQ_ble {c : ℚ} (hc : 0 ≤ c) :
    ∀ {a b : EValue}, a.ble b = true → (EValue.mulQ c a).ble (EValue.mulQ c b) = true
  | .fin x, .fin y, h => by
    simp [EValue.ble, EValue.mulQ] at h ⊢
    exact mul_le_mul_of_nonneg_left h hc
  | .fin x, .inf, _ => by
    by_cases h0 : c = 0
    · simp [EValue.mulQ, EValue.ble, h0]
    · simp [EValue.mulQ, EValue.ble, h0]
  | .inf, .inf, _ => EValue.ble_refl _
  | .inf, .fin _, h => by simp [EValue.ble] at h

theorem expSum_congr {V1 V2 : Nat → EValue} :
    ∀ {os : List (Nat × ℚ)}, (∀ o ∈ os, V1 o.1 = V2 o.1) → expSum V1 os = expSum V2 os
  | [], _ => rfl
  | o :: os, h => by
    simp only [expSum]
    rw [h o (by simp), expSum_congr (fun x hx => h x (by simp [hx]))]

theorem expSum_ble {V1 V2 : Nat → EValue} :
    ∀ {os : List (Nat × ℚ)}, (∀ o ∈ os, 0 ≤ o.2) →
      (∀ o ∈ os, (V1 o.1).ble (V2 o.1) = true) →
      (expSum V1 os).ble (expSum V2 os) = true
  | [], _, _ => EValue.ble_refl _
  | o :: os, hp, hv =>
    EValue.add_ble_add
      (EValue.mulQ_ble (hp o (by simp)) (hv o (by simp)))
      (expSum_ble (fun x hx => hp x (by simp [hx])) (fun x hx => hv x (by simp [hx])))

theorem qval_ble {cfg : AOConfig} {V1 V2 : Nat → EValue} {e : Edge}
    (hd : 0 ≤ cfg.discount) (hp : ∀ o ∈ e.outcomes, 0 ≤ o.2)
    (hv : ∀ o ∈ e.outcomes, (V1 o.1).ble (V2 o.1) = true) :
    (qval cfg V1 e).ble (qval cfg V2 e) = true :=
  EValue.add_ble_add (EValue.ble_refl _) (EValue.mulQ_ble hd (expSum_ble hp hv))

theorem qval_congr {cfg : AOConfig} {V1 V2 : Nat → EValue} {e : Edge}
    (h : ∀ o ∈ e.outcomes, V1 o.1 = V2 o.1) : qval cfg V1 e = qval cfg V2 e := by
  unfold qval
  rw [expSum_congr h]

theorem firstMinBy_cons {α : Type} {f : α → EValue} {a : α} {l : List α} :
    firstMinBy f (a :: l) =
      match firstMinBy f l with
      | none => some a
      | some b => if (f a).ble (f b) then some a else some b := rfl

theorem firstMinBy_cons_none {α : Type} {f : α → EValue} {a : α} {l : List α}
    (h : firstMinBy f l = none) : firstMinBy f (a :: l) = some a := by
  rw [firstMinBy_cons, h]

theorem firstMinBy_cons_some {α : Type} {f : α → EValue} {a b : α} {l : List α}
    (h : firstMinBy f l = some b) :
    firstMinBy f (a :: l) = if (f a).ble (f b) then some a else some b := by
  rw [firstMinBy_cons, h]

theorem firstMinBy_eq_none {α : Type} {f : α → EValue} :
    ∀ {l : List α}, firstMinBy f l = none → l = []
  | [], _ => rfl
  | a :: l, h => by
    cases hl : firstMinBy f l with
    | none => rw [firstMinBy_cons_none hl] at h; simp at h
    | some b =>
      rw [firstMinBy_cons_some hl] at h
      by_cases hc : (f a).ble (f b) = true
      · rw [if_pos hc] at h; simp at h
      · rw [if_neg hc] at h; simp at h

theorem firstMinBy_mem {α : Type} {f : α → EValue} {l : List α} :
    ∀ {x : α}, firstMinBy f l = some x → x ∈ l := by
  induction l with
  | nil => intro x h; simp [firstMinBy] at h
  | cons a l ih =>
    intro x h
    cases hl : firstMinBy f l with
    | none =>
      rw [firstMinBy_cons_none hl] at h
      simp at h
      subst h
      exact List.mem_cons_self a l
    | some b =>
      rw [firstMinBy_cons_some hl] at h
      by_cases hc : (f a).ble (f b) = true
      · rw [if_pos hc] at h
        simp at h
        subst h
        exact List.mem_cons_self a l
      · rw [if_neg hc] at h
        simp at h
        subst h
        exact List.mem_cons_of_mem a (ih hl)

theorem firstMinBy_le {α : Type} {f : α → EValue} {l : List α} :
    ∀ {x : α}, firstMinBy f l = some x → ∀ y ∈ l, (f x).ble (f y) = true := by
  induction l with
  | nil => intro x h; simp [firstMinBy] at h
  | cons a l ih =>
    intro x h y hy
    cases hl : firstMinBy f l with
    | none =>
      rw [firstMinBy_cons_none hl] at h
      simp at h
      subst h
      have hnil : l = [] := firstMinBy_eq_none hl
      subst hnil
      simp at hy
      subst hy
      exact EValue.ble_refl _
    | some b =>
      rw [firstMinBy_cons_some hl] at h
      by_cases hc : (f a).ble (f b) = true
      · rw [if_pos hc] at h
        simp at h
        subst h
        rcases List.mem_cons.mp hy with rfl | hy'
        · exact EValue.ble_refl _
        · exact EValue.ble_trans hc (ih hl y hy')
      · rw [if_neg hc] at h
        simp at h
        subst h
        rcases List.mem_cons.mp hy with rfl | hy'
        · rcases EValue.ble_total (f b) (f y) with hxy | hyx
          · exact hxy
          · exact absurd hyx hc
        · exact ih hl y hy'

theorem firstMinBy_first {α : Type} {f : α → EValue} {l : List α} :
    ∀ {x : α}, firstMinBy f l = some x →
      ∃ l1 l2, l = l1 ++ x :: l2 ∧ ∀ y ∈ l1, (f y).ble (f x) = false := by
  induction l with
  | nil => intro x h; simp [firstMinBy] at h
  | cons a l ih =>
    intro x h
    cases hl : firstMinBy f l with
    | none =>
      rw [firstMinBy_cons_none hl] at h
      simp at h
      subst h
      exact ⟨[], l, rfl, by simp⟩
    | some b =>
      rw [firstMinBy_cons_some hl] at h
      by_cases hc : (f a).ble (f b) = true
      · rw [if_pos hc] at h
        simp at h
        subst h
        exact ⟨[], l, rfl, by simp⟩
      · rw [if_neg hc] at h
        simp at h
        subst h
        obtain ⟨l1, l2, heq, hgt⟩ := ih hl
        refine ⟨a :: l1, l2, by simp [heq], ?_⟩
        intro y hy
        rcases List.mem_cons.mp hy with rfl | hy'
        · exact Bool.eq_false_iff.mpr hc
        · exact hgt y hy'

theorem minQ_le {cfg : AOConfig} {V : Nat → EValue} {es : List Edge} {e : Edge}
    (he : e ∈ es) : (minQ cfg V es).ble (qval cfg V e) = true := by
  unfold minQ
  cases hm : firstMinBy (qval cfg V) es with
  | none =>
    have : es = [] := firstMinBy_eq_none hm
    subst this
    simp at he
  | some b => exact firstMinBy_le hm e he

theorem minQ_mono {cfg : AOConfig} {V1 V2 : Nat → EValue} {es : List Edge}
    (h : ∀ e ∈ es, (qval cfg V1 e).ble (qval cfg V2 e) = true) :
    (minQ cfg V1 es).ble (minQ cfg V2 es) = true := by
  cases h2 : firstMinBy (qval cfg V2) es with
  | none =>
    have : es = [] := firstMinBy_eq_none h2
    subst this
    simp [minQ, firstMinBy, EValue.ble]
  | some b2 =>
    have hb2 : b2 ∈ es := firstMinBy_mem h2
    have h1 : (minQ cfg V1 es).ble (qval cfg V1 b2) = true := minQ_le hb2
    have h3 : (minQ cfg V2 es) = qval cfg V2 b2 := by
      unfold minQ
      rw [h2]
    rw [h3]
    exact EValue.ble_trans h1 (h b2 hb2)

theorem findNode_some {s : Nat} :
    ∀ {ns : List Node} {n : Node}, findNode s ns = some n → n.state = s ∧ n ∈ ns := by
  intro ns
  induction ns with
  | nil => intro n h; simp [findNode] at h
  | cons a l ih =>
    intro n h
    simp only [findNode] at h
    by_cases ha : a.state = s
    · rw [if_pos ha] at h
      simp at h
      subst h
      exact ⟨ha, List.mem_cons_self _ _⟩
    · rw [if_neg ha] at h
      obtain ⟨h1, h2⟩ := ih h
      exact ⟨h1, List.mem_cons_of_mem _ h2⟩

theorem findNode_none {s : Nat} :
    ∀ {ns : List Node}, findNode s ns = none → s ∉ ns.map (fun n => n.state) := by
  intro ns
  induction ns with
  | nil => intro _ h; simp at h
  | cons a l ih =>
    intro h hmem
    simp only [findNode] at h
    by_cases ha : a.state = s
    · rw [if_pos ha] at h; simp at h
    · rw [if_neg ha] at h
      simp at hmem
      rcases hmem with h1 | h1
      · exact ha h1.symm
      · exact ih h (by simpa using h1)

theorem findNode_isSome_of_mem {s : Nat} :
    ∀ {ns : List Node}, s ∈ ns.map (fun n => n.state) → (findNode s ns).isSome = true := by
  intro ns
  induction ns with
  | nil => intro h; simp at h
  | cons a l ih =>
    intro h
    simp only [findNode]
    by_cases ha : a.state = s
    · rw [if_pos ha]; rfl
    · rw [if_neg ha]
      simp at h
      rcases h with h1 | h1
      · exact absurd h1.symm ha
      · exact ih (by simpa using h1)

theorem find_some {g : Graph} {s : Nat} {n : Node} (h : g.find s = some n) :
    n.state = s ∧ n ∈ g.nodes := findNode_some h

theorem find_none {g : Graph} {s : Nat} (h : g.find s = none) : s ∉ g.states :=
  findNode_none h

theorem find_isSome_of_mem {g : Graph} {s : Nat} (h : s ∈ g.states) :
    (g.find s).isSome = true := findNode_isSome_of_mem h

theorem isEmpty_false_of_ne {α : Type} {l : List α} (h : l ≠ []) : l.isEmpty = false := by
  cases l with
  | nil => exact absurd rfl h
  | cons a l => rfl

theorem valueF_goal {cfg : AOConfig} {g : Graph} {s : Nat} (h : cfg.isGoal s = true) :
    ∀ fuel, valueF cfg g fuel s = .fin 0 := by
  intro fuel
  cases fuel <;> simp [valueF, h]

theorem valueF_unexp {cfg : AOConfig} {g : Graph} {s : Nat} {n : Node}
    (hg : cfg.isGoal s = false) (hf : g.find s = some n) (hx : n.expanded = false) :
    ∀ fuel, valueF cfg g fuel s = .fin (cfg.heuristic s) := by
  intro fuel
  cases fuel <;> simp [valueF, hg, hf, hx]

theorem valueF_dead {cfg : AOConfig} {g : Graph} {s : Nat} {n : Node}
    (hg : cfg.isGoal s = false) (hf : g.find s = some n) (hx : n.expanded = true)
    (he : n.edges = []) : ∀ fuel, valueF cfg g fuel s = .inf := by
  intro fuel
  cases fuel <;> simp [valueF, hg, hf, hx, he]

theorem valueF_exp_zero {cfg : AOConfig} {g : Graph} {s : Nat} {n : Node}
    (hg : cfg.isGoal s = false) (hf : g.find s = some n) (hx : n.expanded = true)
    (hne : n.edges ≠ []) : valueF cfg g 0 s = .fin (cfg.heuristic s) := by
  simp [valueF, hg, hf, hx, isEmpty_false_of_ne hne]

theorem valueF_exp {cfg : AOConfig} {g : Graph} {s : Nat} {n : Node} {fuel : Nat}
    (hg : cfg.isGoal s = false) (hf : g.find s = some n) (hx : n.expanded = true)
    (hne : n.edges ≠ []) :
    valueF cfg g (fuel + 1) s = minQ cfg (valueF cfg g fuel) n.edges := by
  simp [valueF, hg, hf, hx, isEmpty_false_of_ne hne]

theorem solvedF_goal {cfg : AOConfig} {g : Graph} {s : Nat} (h : cfg.isGoal s = true) :
    ∀ fuel, solvedF cfg g fuel s = true := by
  intro fuel
  cases fuel <;> simp [solvedF, h]

theorem solvedF_unexp {cfg : AOConfig} {g : Graph} {s : Nat} {n : Node}
    (hg : cfg.isGoal s = false) (hf : g.find s = some n) (hx : n.expanded = false) :
    ∀ fuel, solvedF cfg g fuel s = false := by
  intro fuel
  cases fuel <;> simp [solvedF, hg, hf, hx]

theorem solvedF_dead {cfg : AOConfig} {g : Graph} {s : Nat} {n : Node}
    (hg : cfg.isGoal s = false) (hf : g.find s = some n) (hx : n.expanded = true)
    (he : n.edges = []) : ∀ fuel, solvedF cfg g fuel s = true := by
  intro fuel
  cases fuel <;> simp [solvedF, hg, hf, hx, he]

theorem solvedF_exp_zero {cfg : AOConfig} {g : Graph} {s : Nat} {n : Node}
    (hg : cfg.isGoal s = false) (hf : g.find s = some n) (hx : n.expanded = true)
    (hne : n.edges ≠ []) : solvedF cfg g 0 s = false := by
  simp [solvedF, hg, hf, hx, isEmpty_false_of_ne hne]

theorem solvedF_exp {cfg : AOConfig} {g : Graph} {s : Nat} {n : Node} {fuel : Nat} {e : Edge}
    (hg : cfg.isGoal s = false) (hf : g.find s = some n) (hx : n.expanded = true)
    (hbest : firstMinBy (qval cfg (valueF cfg g fuel)) n.edges = some e) :
    solvedF cfg g (fuel + 1) s = e.outcomes.all (fun o => solvedF cfg g fuel o.1) := by
  have hne : n.edges ≠ [] := by
    intro h0
    rw [h0] at hbest
    simp [firstMinBy] at hbest
  simp [solvedF, hg, hf, hx, isEmpty_false_of_ne hne, hbest]

theorem consistentB_node {cfg : AOConfig} {g : Graph} (hc : consistentB cfg g = true)
    {n : Node} (hn : n ∈ g.nodes) (hx : n.expanded = true) :
    n.edges = buildEdges cfg n.state ∧
      ∀ e ∈ n.edges, ∀ o ∈ e.outcomes, o.1 ∈ g.states ∧ 0 ≤ o.2 := by
  unfold consistentB at hc
  rw [List.all_eq_true] at hc
  have h := hc n hn
  rw [hx] at h
  simp at h
  obtain ⟨h1, h2⟩ := h
  exact ⟨h1, fun e he o ho => h2 e he o.1 o.2 (by simpa using ho)⟩

/-- Claim C7 (amended): when the heuristic is admissible with respect to a
cost-to-go function Vstar satisfying the domain's Bellman equation, every
state present in a well-formed search graph has a value that is an
optimistic lower bound — value ≤ Vstar, possibly infinite at dead ends —
and every solved state's value equals the true optimum Vstar. -/
theorem c7_optimistic_lower_bound {cfg : AOConfig} {g : Graph} {Vstar : Nat → EValue}
    (hcons : consistentB cfg g = true) (hd : 0 ≤ cfg.discount)
    (hadm : admissibleOn cfg g Vstar) (hbell : bellmanOn cfg g Vstar) :
    ∀ fuel, ∀ s, s ∈ g.states →
      (valueF cfg g fuel s).ble (Vstar s) = true ∧
      (solvedF cfg g fuel s = true → valueF cfg g fuel s = Vstar s) := by
  intro fuel
  induction fuel with
  | zero =>
    intro s hs
    by_cases hgoal : cfg.isGoal s = true
    · have hb := hbell s hs
      rw [if_pos hgoal] at hb
      refine ⟨?_, fun _ => ?_⟩
      · rw [valueF_goal hgoal, hb]
        exact EValue.ble_refl _
      · rw [valueF_goal hgoal, hb]
    · replace hgoal : cfg.isGoal s = false := by simpa using hgoal
      have hb := hbell s hs
      rw [if_neg (by simp [hgoal])] at hb
      cases hf : g.find s with
      | none => exact absurd (find_isSome_of_mem hs) (by simp [hf])
      | some n =>
        obtain ⟨hstate, hmemn⟩ := find_some hf
        by_cases hx : n.expanded = true
        · by_cases he : n.edges = []
          · obtain ⟨hedges, _⟩ := consistentB_node hcons hmemn hx
            have hbe : buildEdges cfg s = [] := by
              rw [← hstate, ← hedges]
              exact he
            have hvs : Vstar s = .inf := by
              rw [hb, hbe]
              simp [minQ, firstMinBy]
            refine ⟨?_, fun _ => ?_⟩
            · rw [valueF_dead hgoal hf hx he, hvs]
              exact EValue.ble_refl _
            · rw [valueF_dead hgoal hf hx he, hvs]
          · refine ⟨?_, fun hsv => ?_⟩
            · rw [valueF_exp_zero hgoal hf hx he]
              exact hadm s hs
            · rw [solvedF_exp_zero hgoal hf hx he] at hsv
              simp at hsv
        · replace hx : n.expanded = false := by simpa using hx
          refine ⟨?_, fun hsv => ?_⟩
          · rw [valueF_unexp hgoal hf hx]
            exact hadm s hs
          · rw [solvedF_unexp hgoal hf hx] at hsv
            simp at hsv
  | succ fuel ih =>
    intro s hs
    by_cases hgoal : cfg.isGoal s = true
    · have hb := hbell s hs
      rw [if_pos hgoal] at hb
      refine ⟨?_, fun _ => ?_⟩
      · rw [valueF_goal hgoal, hb]
        exact EValue.ble_refl _
      · rw [valueF_goal hgoal, hb]
    · replace hgoal : cfg.isGoal s = false := by simpa using hgoal
      have hb := hbell s hs
      rw [if_neg (by simp [hgoal])] at hb
      cases hf : g.find s with
      | none => exact absurd (find_isSome_of_mem hs) (by simp [hf])
      | some n =>
        obtain ⟨hstate, hmemn⟩ := find_some hf
        by_cases hx : n.expanded = true
        · by_cases he : n.edges = []
          · obtain ⟨hedges, _⟩ := consistentB_node hcons hmemn hx
            have hbe : buildEdges cfg s = [] := by
              rw [← hstate, ← hedges]
              exact he
            have hvs : Vstar s = .inf := by
              rw [hb, hbe]
              simp [minQ, firstMinBy]
            refine ⟨?_, fun _ => ?_⟩
            · rw [valueF_dead hgoal hf hx he, hvs]
              exact EValue.ble_refl _
            · rw [valueF_dead hgoal hf hx he, hvs]
          · obtain ⟨hedges, houts⟩ := consistentB_node hcons hmemn hx
            have hbe : buildEdges cfg s = n.edges := by
              rw [← hstate, hedges]
            have hvx : valueF cfg g (fuel + 1) s = minQ cfg (valueF cfg g fuel) n.edges :=
              valueF_exp hgoal hf hx he
            have hpoint : ∀ e ∈ n.edges,
                (qval cfg (valueF cfg g fuel) e).ble (qval cfg Vstar e) = true := by
              intro e he'
              refine qval_ble hd (fun o ho => (houts e he' o ho).2) (fun o ho => ?_)
              exact (ih o.1 (houts e he' o ho).1).1
            have hble : (valueF cfg g (fuel + 1) s).ble (Vstar s) = true := by
              rw [hvx, hb, hbe]
              exact minQ_mono hpoint
            refine ⟨hble, fun hsv => ?_⟩
            cases hbest : firstMinBy (qval cfg (valueF cfg g fuel)) n.edges with
            | none => exact absurd (firstMinBy_eq_none hbest) he
            | some e =>
              rw [solvedF_exp hgoal hf hx hbest] at hsv
              have hallsolved : ∀ o ∈ e.outcomes, solvedF cfg g fuel o.1 = true :=
                List.all_eq_true.mp hsv
              have hememb : e ∈ n.edges := firstMinBy_mem hbest
              have hchildeq : ∀ o ∈ e.outcomes, valueF cfg g fuel o.1 = Vstar o.1 := by
                intro o ho
                exact (ih o.1 (houts e hememb o ho).1).2 (hallsolved o ho)
              have hveq : valueF cfg g (fuel + 1) s = qval cfg (valueF cfg g fuel) e := by
                rw [hvx]
                unfold minQ
                rw [hbest]
              have h1 : (Vstar s).ble (valueF cfg g (fuel + 1) s) = true := by
                rw [hveq, qval_congr hchildeq, hb, hbe]
                exact minQ_le hememb
              exact EValue.ble_antisymm hble h1
        · replace hx : n.expanded = false := by simpa using hx
          refine ⟨?_, fun hsv => ?_⟩
          · rw [valueF_unexp hgoal hf hx]
            exact hadm s hs
          · rw [solvedF_unexp hgoal hf hx] at hsv
            simp at hsv

theorem addParent_state (par : Option Nat) (n : Node) : (addParent par n).state = n.state := by
  cases par with
  | none => rfl
  | some p =>
    simp only [addParent]
    split <;> rfl

theorem addParent_expanded (par : Option Nat) (n : Node) :
    (addParent par n).expanded = n.expanded := by
  cases par with
  | none => rfl
  | some p =>
    simp only [addParent]
    split <;> rfl

theorem addParent_edges (par : Option Nat) (n : Node) : (addParent par n).edges = n.edges := by
  cases par with
  | none => rfl
  | some p =>
    simp only [addParent]
    split <;> rfl

theorem addParent_parents_sub (par : Option Nat) (n : Node) :
    ∀ q ∈ n.parents, q ∈ (addParent par n).parents := by
  intro q hq
  cases par with
  | none => exact hq
  | some p =>
    simp only [addParent]
    split
    · exact hq
    · simp [hq]

theorem addParent_parents_new (q : Nat) (n : Node) : q ∈ (addParent (some q) n).parents := by
  simp only [addParent]
  by_cases h : n.parents.contains q = true
  · rw [if_pos h]
    simpa using h
  · rw [if_neg h]
    simp

theorem getOrCreate_states_found {g : Graph} {s : Nat} {par : Option Nat} {n : Node}
    (hf : g.find s = some n) : (g.getOrCreate s par).states = g.states := by
  unfold Graph.getOrCreate
  rw [hf]
  simp only [Graph.states, List.map_map]
  apply List.map_congr_left
  intro m _
  simp only [Function.comp]
  by_cases h : m.state = s
  · rw [if_pos h, addParent_state]
  · rw [if_neg h]

theorem getOrCreate_states_new {g : Graph} {s : Nat} {par : Option Nat}
    (hf : g.find s = none) : (g.getOrCreate s par).states = g.states ++ [s] := by
  unfold Graph.getOrCreate
  rw [hf]
  simp [Graph.states]

theorem statesExtend_refl (g : Graph) : statesExtend g g := ⟨[], by simp⟩

theorem statesExtend_trans {g1 g2 g3 : Graph} (h1 : statesExtend g1 g2)
    (h2 : statesExtend g2 g3) : statesExtend g1 g3 := by
  obtain ⟨l1, e1⟩ := h1
  obtain ⟨l2, e2⟩ := h2
  exact ⟨l1 ++ l2, by rw [e2, e1, List.append_assoc]⟩

theorem statesExtend_getOrCreate (g : Graph) (s : Nat) (par : Option Nat) :
    statesExtend g (g.getOrCreate s par) := by
  cases hf : g.find s with
  | none => exact ⟨[s], getOrCreate_states_new hf⟩
  | some n => exact ⟨[], by rw [getOrCreate_states_found hf]; simp⟩

theorem statesExtend_foldl {α : Type} {f : Graph → α → Graph}
    (hf : ∀ g a, statesExtend g (f g a)) :
    ∀ (l : List α) (g : Graph), statesExtend g (l.foldl f g)
  | [], g => statesExtend_refl g
  | a :: l, g => statesExtend_trans (hf g a) (statesExtend_foldl hf l (f g a))

theorem expandNode_states (g : Graph) (s : Nat) (es : List Edge) :
    (g.expandNode s es).states = g.states := by
  simp only [Graph.expandNode, Graph.states, List.map_map]
  apply List.map_congr_left
  intro m _
  simp only [Function.comp]
  by_cases h : m.state = s
  · rw [if_pos h]
  · rw [if_neg h]

theorem statesExtend_insertOutcomes (s : Nat) (es : List Edge) (g : Graph) :
    statesExtend g (insertOutcomes s es g) := by
  apply statesExtend_foldl
  intro g1 e
  apply statesExtend_foldl
  intro g2 o
  exact statesExtend_getOrCreate g2 o.1 (some s)

theorem statesExtend_expandTip (cfg : AOConfig) (g : Graph) (s : Nat) :
    statesExtend g (expandTip cfg g s) := by
  unfold expandTip
  have h1 : statesExtend g (g.expandNode s (buildEdges cfg s)) :=
    ⟨[], by rw [expandNode_states]; simp⟩
  exact statesExtend_trans h1 (statesExtend_insertOutcomes _ _ _)

theorem expandBatchAux_succ (cfg : AOConfig) (i n : Nat) (st : SolverState) :
    expandBatchAux cfg i (n + 1) st =
      match popBest cfg st.graph with
      | none => (st, false)
      | some s =>
        if cfg.callback st then ({ st with trace := st.trace ++ [.callbackInvoked i] }, true)
        else
          expandBatchAux cfg (i + 1) n
            ⟨expandTip cfg st.graph s, (st.trace ++ [.callbackInvoked i]) ++ [.tipExpanded i]⟩ := rfl

theorem expandBatchAux_succ_none {cfg : AOConfig} {i n : Nat} {st : SolverState}
    (hp : popBest cfg st.graph = none) : expandBatchAux cfg i (n + 1) st = (st, false) := by
  rw [expandBatchAux_succ, hp]

theorem expandBatchAux_succ_stop {cfg : AOConfig} {i n : Nat} {st : SolverState} {s : Nat}
    (hp : popBest cfg st.graph = some s) (hcb : cfg.callback st = true) :
    expandBatchAux cfg i (n + 1) st =
      ({ st with trace := st.trace ++ [.callbackInvoked i] }, true) := by
  rw [expandBatchAux_succ, hp]
  simp [hcb]

theorem expandBatchAux_succ_go {cfg : AOConfig} {i n : Nat} {st : SolverState} {s : Nat}
    (hp : popBest cfg st.graph = some s) (hcb : cfg.callback st = false) :
    expandBatchAux cfg i (n + 1) st =
      expandBatchAux cfg (i + 1) n
        ⟨expandTip cfg st.graph s, (st.trace ++ [.callbackInvoked i]) ++ [.tipExpanded i]⟩ := by
  rw [expandBatchAux_succ, hp]
  simp [hcb]

theorem expandBatchAux_extend (cfg : AOConfig) :
    ∀ (n i : Nat) (st : SolverState), statesExtend st.graph ((expandBatchAux cfg i n st).1.graph) := by
  intro n
  induction n with
  | zero => intro i st; exact statesExtend_refl _
  | succ n ih =>
    intro i st
    cases hp : popBest cfg st.graph with
    | none =>
      rw [expandBatchAux_succ_none hp]
      exact statesExtend_refl _
    | some s =>
      by_cases hcb : cfg.callback st = true
      · rw [expandBatchAux_succ_stop hp hcb]
        exact statesExtend_refl _
      · replace hcb : cfg.callback st = false := by simpa using hcb
        rw [expandBatchAux_succ_go hp hcb]
        exact statesExtend_trans (statesExtend_expandTip cfg st.graph s) (ih (i + 1) _)

theorem aoLoop_extend (cfg : AOConfig) (root : Nat) :
    ∀ (fuel : Nat) (st : SolverState), statesExtend st.graph ((aoLoop cfg root fuel st).graph) := by
  intro fuel
  induction fuel with
  | zero => intro st; exact statesExtend_refl _
  | succ fuel ih =>
    intro st
    unfold aoLoop
    by_cases hc : (solvedF cfg st.graph (fuelOf st.graph) root || (tips cfg st.graph).isEmpty) = true
    · rw [if_pos hc]
      exact statesExtend_refl _
    · rw [if_neg hc]
      cases hb : expandBatch cfg st with
      | mk st1 stop =>
        have hext : statesExtend st.graph st1.graph := by
          have := expandBatchAux_extend cfg cfg.maxTip 0 st
          rw [show expandBatchAux cfg 0 cfg.maxTip st = expandBatch cfg st from rfl, hb] at this
          exact this
        cases stop with
        | true => exact hext
        | false => exact statesExtend_trans hext (ih st1)

theorem solveFrom_extend (cfg : AOConfig) (st : SolverState) (root : Nat) :
    statesExtend st.graph ((solveFrom cfg st root).graph) := by
  unfold solveFrom
  exact statesExtend_trans (statesExtend_getOrCreate st.graph root none)
    (aoLoop_extend cfg root cfg.fuel _)

theorem getOrCreate_nodup {g : Graph} {s : Nat} {par : Option Nat}
    (h : g.states.Nodup) : (g.getOrCreate s par).states.Nodup := by
  cases hf : g.find s with
  | some n => rw [getOrCreate_states_found hf]; exact h
  | none =>
    rw [getOrCreate_states_new hf]
    refine h.append (List.nodup_singleton s) ?_
    intro a ha hb
    simp at hb
    subst hb
    exact find_none hf ha

theorem nodup_foldl {α : Type} {f : Graph → α → Graph}
    (hf : ∀ g a, g.states.Nodup → (f g a).states.Nodup) :
    ∀ (l : List α) (g : Graph), g.states.Nodup → (l.foldl f g).states.Nodup
  | [], _, h => h
  | a :: l, g, h => nodup_foldl hf l (f g a) (hf g a h)

theorem insertOutcomes_nodup {s : Nat} {es : List Edge} {g : Graph}
    (h : g.states.Nodup) : (insertOutcomes s es g).states.Nodup := by
  refine nodup_foldl ?_ es g h
  intro g1 e h1
  refine nodup_foldl ?_ e.outcomes g1 h1
  intro g2 o h2
  exact getOrCreate_nodup h2

theorem expandTip_nodup {cfg : AOConfig} {g : Graph} {s : Nat}
    (h : g.states.Nodup) : (expandTip cfg g s).states.Nodup := by
  unfold expandTip
  refine insertOutcomes_nodup ?_
  rw [expandNode_states]
  exact h

theorem expandBatchAux_nodup (cfg : AOConfig) :
    ∀ (n i : Nat) (st : SolverState), st.graph.states.Nodup →
      (expandBatchAux cfg i n st).1.graph.states.Nodup := by
  intro n
  induction n with
  | zero => intro i st h; exact h
  | succ n ih =>
    intro i st h
    cases hp : popBest cfg st.graph with
    | none =>
      rw [expandBatchAux_succ_none hp]
      exact h
    | some s =>
      by_cases hcb : cfg.callback st = true
      · rw [expandBatchAux_succ_stop hp hcb]
        exact h
      · replace hcb : cfg.callback st = false := by simpa using hcb
        rw [expandBatchAux_succ_go hp hcb]
        exact ih (i + 1) _ (expandTip_nodup h)

theorem aoLoop_nodup (cfg : AOConfig) (root : Nat) :
    ∀ (fuel : Nat) (st : SolverState), st.graph.states.Nodup →
      (aoLoop cfg root fuel st).graph.states.Nodup := by
  intro fuel
  induction fuel with
  | zero => intro st h; exact h
  | succ fuel ih =>
    intro st h
    unfold aoLoop
    by_cases hc : (solvedF cfg st.graph (fuelOf st.graph) root || (tips cfg st.graph).isEmpty) = true
    · rw [if_pos hc]
      exact h
    · rw [if_neg hc]
      cases hb : expandBatch cfg st with
      | mk st1 stop =>
        have hnd : st1.graph.states.Nodup := by
          have := expandBatchAux_nodup cfg cfg.maxTip 0 st h
          rw [show expandBatchAux cfg 0 cfg.maxTip st = expandBatch cfg st from rfl, hb] at this
          exact this
        cases stop with
        | true => exact hnd
        | false => exact ih st1 hnd

theorem solveFrom_nodup {cfg : AOConfig} {st : SolverState} {root : Nat}
    (h : st.graph.states.Nodup) : (solveFrom cfg st root).graph.states.Nodup := by
  unfold solveFrom
  exact aoLoop_nodup cfg root cfg.fuel _ (getOrCreate_nodup h)

theorem findNode_map_eq {s : Nat} {f : Node → Node} (hfst : ∀ m, (f m).state = m.state) :
    ∀ {ns : List Node} {n : Node}, findNode s ns = some n →
      findNode s (ns.map (fun m => if m.state = s then f m else m)) = some (f n) := by
  intro ns
  induction ns with
  | nil => intro n h; simp [findNode] at h
  | cons a l ih =>
    intro n h
    simp only [findNode] at h
    simp only [List.map_cons, findNode]
    by_cases ha : a.state = s
    · rw [if_pos ha] at h
      simp at h
      subst h
      rw [if_pos ha, if_pos (by rw [hfst]; exact ha)]
    · rw [if_neg ha] at h
      rw [if_neg ha, if_neg ha]
      exact ih h

theorem getOrCreate_find_found {g : Graph} {s : Nat} {par : Option Nat} {n : Node}
    (hf : g.find s = some n) : (g.getOrCreate s par).find s = some (addParent par n) := by
  unfold Graph.getOrCreate
  rw [hf]
  exact findNode_map_eq (addParent_state par) hf

theorem expandNode_find_found {g : Graph} {s : Nat} {es : List Edge} {n : Node}
    (hf : g.find s = some n) :
    (g.expandNode s es).find s = some { n with expanded := true, edges := es } := by
  unfold Graph.expandNode
  exact @findNode_map_eq s (fun m => { m with expanded := true, edges := es })
    (fun _ => rfl) g.nodes n hf

theorem expandBatchAux_no_stop {cfg : AOConfig} (hcb : ∀ st2, cfg.callback st2 = false) :
    ∀ (n i : Nat) (st : SolverState), (expandBatchAux cfg i n st).2 = false := by
  intro n
  induction n with
  | zero => intro i st; rfl
  | succ n ih =>
    intro i st
    cases hp : popBest cfg st.graph with
    | none => rw [expandBatchAux_succ_none hp]
    | some s =>
      rw [expandBatchAux_succ_go hp (hcb st)]
      exact ih (i + 1) _

theorem endsWithCb_cons {x : TraceEv} {xs : List TraceEv} (h : xs ≠ []) :
    endsWithCb (x :: xs) = endsWithCb xs := by
  cases xs with
  | nil => exact absurd rfl h
  | cons y ys => cases x <;> rfl

theorem endsWithCb_append (l : List TraceEv) {tr : List TraceEv}
    (h : endsWithCb tr = true) : endsWithCb (l ++ tr) = true := by
  induction l with
  | nil => simpa using h
  | cons a l ih =>
    have htr : tr ≠ [] := by
      intro h0
      rw [h0] at h
      simp [endsWithCb] at h
    have hlt : l ++ tr ≠ [] := by
      intro h0
      exact htr (List.append_eq_nil.mp h0).2
    rw [List.cons_append, endsWithCb_cons hlt]
    exact ih

theorem goodBatchTrace_pair {i : Nat} {tr : List TraceEv} (h : goodBatchTrace tr = true) :
    goodBatchTrace (.callbackInvoked i :: .tipExpanded i :: tr) = true := by
  simp [goodBatchTrace, h]

/-- Claim C1: for a state for which no solution is defined,
`AOstar._get_next_action` first triggers a solve rooted at that state (the
implicit re-solve of aostar.py lines 192-193) and only then returns the
best action, computed from the re-solved graph. -/
theorem c1_implicit_resolve (cfg : AOConfig) (st : SolverState) (obs : Nat)
    (h : isSolutionDefinedFor st.graph obs = false) :
    (wrapperGetNextAction cfg st obs).st = solveFrom cfg st obs ∧
      ∀ a, coreGetNextAction cfg (solveFrom cfg st obs).graph obs = some a →
        (wrapperGetNextAction cfg st obs).action = a := by
  have hni : ¬ isSolutionDefinedFor st.graph obs = true := by simp [h]
  simp only [wrapperGetNextAction, if_neg hni]
  refine ⟨?_, fun a ha => ?_⟩
  · cases hcg : coreGetNextAction cfg (solveFrom cfg st obs).graph obs <;> simp [hcg]
  · simp [ha]

/-- Witness for C1 at a concrete input: state 5 is undefined in the fresh
solver, so `_get_next_action` re-solves from state 5 first. -/
theorem c1_witness :
    isSolutionDefinedFor initSolver.graph 5 = false ∧
      ((wrapperGetNextAction deadCfg initSolver 5).st = solveFrom deadCfg initSolver 5 ∧
        ∀ a, coreGetNextAction deadCfg (solveFrom deadCfg initSolver 5).graph 5 = some a →
          (wrapperGetNextAction deadCfg initSolver 5).action = a) :=
  ⟨rfl, c1_implicit_resolve deadCfg initSolver 5 rfl⟩

/-- Claim C2: `AOstar._get_utility` is a plain pass-through (no implicit
re-solve): on an unexplored state it returns the "undefined" sentinel,
and on an explored state it returns the node's current value, which for
an expanded non-goal node with at least one applicable action is the
minimal Q-value over the node's hyperedges. -/
theorem c2_utility_sentinel_or_value (cfg : AOConfig) (st : SolverState) (obs : Nat) :
    (st.graph.find obs = none → wrapperGetUtility cfg st obs = none) ∧
      ∀ n, st.graph.find obs = some n →
        wrapperGetUtility cfg st obs = some (valueF cfg st.graph (fuelOf st.graph) obs) ∧
          (cfg.isGoal obs = false → n.expanded = true → n.edges ≠ [] →
            ∀ fuel, ∃ e, e ∈ n.edges ∧
              valueF cfg st.graph (fuel + 1) obs = qval cfg (valueF cfg st.graph fuel) e ∧
                ∀ e2 ∈ n.edges,
                  (qval cfg (valueF cfg st.graph fuel) e).ble
                      (qval cfg (valueF cfg st.graph fuel) e2) = true) := by
  constructor
  · intro hf
    simp [wrapperGetUtility, getUtility, hf]
  · intro n hf
    constructor
    · simp [wrapperGetUtility, getUtility, hf]
    · intro hg hx hne fuel
      cases hbest : firstMinBy (qval cfg (valueF cfg st.graph fuel)) n.edges with
      | none => exact absurd (firstMinBy_eq_none hbest) hne
      | some e =>
        refine ⟨e, firstMinBy_mem hbest, ?_, firstMinBy_le hbest⟩
        rw [valueF_exp hg hf hx hne]
        unfold minQ
        rw [hbest]

/-- Claim C4: `clear()` (embedded as `clearSolver`, from `AOstar._reset`)
is idempotent, callable before any solve, resets to the empty initial
state, and a subsequent solve reproduces results as from a cold start. -/
theorem c4_clear_idempotent (st st2 : SolverState) (cfg : AOConfig) (r : Nat) :
    clearSolver (clearSolver st) = clearSolver st ∧
      clearSolver st = initSolver ∧
      clearSolver initSolver = initSolver ∧
      solveFrom cfg (clearSolver st2) r = solveFrom cfg initSolver r :=
  ⟨rfl, rfl, rfl, rfl⟩

/-- Claim C10: when, even after the implicit solve, the engine reports no
best action, `AOstar._get_next_action` (aostar.py lines 194-203) does not
fail and returns no sentinel: it takes the warning path and returns the
action sampled from the domain's action space. -/
theorem c10_random_fallback (cfg : AOConfig) (st : SolverState) (obs : Nat)
    (h : coreGetNextAction cfg
        (if isSolutionDefinedFor st.graph obs then st
         else solveFrom cfg st obs).graph obs = none) :
    (wrapperGetNextAction cfg st obs).action = cfg.sampleAction ∧
      (wrapperGetNextAction cfg st obs).warned = true := by
  simp only [wrapperGetNextAction]
  rw [h]
  exact ⟨rfl, rfl⟩

/-- Witness for C10 at a concrete input: state 5 is a dead end, so even
after the implicit solve no best action exists and the sampled action 7
is returned with the warning flag set. -/
theorem c10_witness :
    coreGetNextAction deadCfg
        (if isSolutionDefinedFor initSolver.graph 5 then initSolver
         else solveFrom deadCfg initSolver 5).graph 5 = none ∧
      (wrapperGetNextAction deadCfg initSolver 5).action = deadCfg.sampleAction ∧
        (wrapperGetNextAction deadCfg initSolver 5).warned = true :=
  ⟨rfl, c10_random_fallback deadCfg initSolver 5 rfl⟩

/-- Claim C3: re-rooting reuses the explored subgraph as shared structure:
solving from an already-explored state S1 only ever appends new nodes (the
previous state list is a prefix of the new one), the explored-state count
does not reset to zero, and no duplicate node is created for S1. -/
theorem c3_reroot_reuses_subgraph (cfg : AOConfig) (st : SolverState) (s1 : Nat)
    (hmem : s1 ∈ st.graph.states) (hnd : st.graph.states.Nodup) :
    (∃ l, (solveFrom cfg st s1).graph.states = st.graph.states ++ l) ∧
      st.graph.nodes.length ≤ (solveFrom cfg st s1).graph.nodes.length ∧
      0 < (solveFrom cfg st s1).graph.nodes.length ∧
      (solveFrom cfg st s1).graph.states.count s1 = 1 := by
  obtain ⟨l, hl⟩ := solveFrom_extend cfg st s1
  have hnd2 : (solveFrom cfg st s1).graph.states.Nodup := solveFrom_nodup hnd
  have hmem2 : s1 ∈ (solveFrom cfg st s1).graph.states := by
    rw [hl]
    exact List.mem_append_left l hmem
  have hlen : ∀ g : Graph, g.states.length = g.nodes.length := fun g => by
    simp [Graph.states]
  refine ⟨⟨l, hl⟩, ?_, ?_, List.count_eq_one_of_mem hnd2 hmem2⟩
  · rw [← hlen, ← hlen, hl]
    simp
  · rw [← hlen]
    exact List.length_pos_of_mem hmem2

/-- Witness for C3 at a concrete input: after solving `deadCfg` from state
0, state 1 is explored; solving again from state 1 keeps the graph. -/
theorem c3_witness :
    1 ∈ (solveFrom deadCfg initSolver 0).graph.states ∧
      ((∃ l, (solveFrom deadCfg (solveFrom deadCfg initSolver 0) 1).graph.states =
          (solveFrom deadCfg initSolver 0).graph.states ++ l) ∧
        (solveFrom deadCfg initSolver 0).graph.nodes.length ≤
          (solveFrom deadCfg (solveFrom deadCfg initSolver 0) 1).graph.nodes.length ∧
        0 < (solveFrom deadCfg (solveFrom deadCfg initSolver 0) 1).graph.nodes.length ∧
        (solveFrom deadCfg (solveFrom deadCfg initSolver 0) 1).graph.states.count 1 = 1) :=
  ⟨by simp [show (solveFrom deadCfg initSolver 0).graph.states = [0, 1] from rfl],
    c3_reroot_reuses_subgraph deadCfg (solveFrom deadCfg initSolver 0) 1
      (by simp [show (solveFrom deadCfg initSolver 0).graph.states = [0, 1] from rfl])
      (by simp [show (solveFrom deadCfg initSolver 0).graph.states = [0, 1] from rfl])⟩

/-- The counterexample to claim C5: in the solved `deadCfg` graph, state 1
is a dead end (expanded, no hyperedge, not a goal) with value infinity and
marked solved, yet `is_solution_defined_for` returns false for it, because
no best action is recorded at it (contract of the Policy Extractor). -/
theorem c5_counterexample :
    (deadG.find 1).map (fun n => (n.expanded, n.edges)) = some (true, []) ∧
      deadCfg.isGoal 1 = false ∧
      valueF deadCfg deadG (fuelOf deadG) 1 = .inf ∧
      solvedF deadCfg deadG (fuelOf deadG) 1 = true ∧
      isSolutionDefinedFor deadG 1 = false ∧
      (deadG.find 0).map (fun n => n.expanded) = some true :=
  ⟨rfl, rfl, rfl, rfl, rfl, rfl⟩

/-- Claim C5 (amended): a tip with an empty applicable-action set at a
non-goal is recovered locally: expanding it marks it expanded with no
hyperedge, its value becomes infinity at every fuel, it is marked solved,
and the search is not aborted (a batch can only stop on the callback's
signal); however `is_solution_defined_for` returns false for the dead
end — the dead-end signal, distinct from "unexplored", is the solved
status with value infinity, not a defined best action. -/
theorem c5_dead_end_recovery (cfg : AOConfig) (g : Graph) (s : Nat)
    (hg : cfg.isGoal s = false) (ha : cfg.applicable s = [])
    (hn : ∃ n, g.find s = some n) :
    (∃ n2, (expandTip cfg g s).find s = some n2 ∧ n2.expanded = true ∧ n2.edges = []) ∧
      (∀ fuel, valueF cfg (expandTip cfg g s) fuel s = .inf) ∧
      (∀ fuel, solvedF cfg (expandTip cfg g s) fuel s = true) ∧
      isSolutionDefinedFor (expandTip cfg g s) s = false ∧
      ∀ (i m : Nat) (st : SolverState), (∀ st2, cfg.callback st2 = false) →
        (expandBatchAux cfg i m st).2 = false := by
  obtain ⟨n, hf⟩ := hn
  have hbe : buildEdges cfg s = [] := by simp [buildEdges, ha]
  have hexp : expandTip cfg g s = g.expandNode s [] := by
    simp [expandTip, hbe, insertOutcomes]
  have hf2 : (expandTip cfg g s).find s = some { n with expanded := true, edges := [] } := by
    rw [hexp]
    exact expandNode_find_found hf
  refine ⟨⟨{ n with expanded := true, edges := [] }, hf2, rfl, rfl⟩, ?_, ?_, ?_, ?_⟩
  · exact valueF_dead hg hf2 rfl rfl
  · exact solvedF_dead hg hf2 rfl rfl
  · simp [isSolutionDefinedFor, hf2]
  · intro i m st hcb
    exact expandBatchAux_no_stop hcb m i st

/-- Witness for C5 (amended) at a concrete input: state 1 of `deadCfg`,
explored but unexpanded in `gDead1`. -/
theorem c5_witness :
    (∃ n2, (expandTip deadCfg gDead1 1).find 1 = some n2 ∧
        n2.expanded = true ∧ n2.edges = []) ∧
      (∀ fuel, valueF deadCfg (expandTip deadCfg gDead1 1) fuel 1 = .inf) ∧
      (∀ fuel, solvedF deadCfg (expandTip deadCfg gDead1 1) fuel 1 = true) ∧
      isSolutionDefinedFor (expandTip deadCfg gDead1 1) 1 = false ∧
      ∀ (i m : Nat) (st : SolverState), (∀ st2, deadCfg.callback st2 = false) →
        (expandBatchAux deadCfg i m st).2 = false :=
  c5_dead_end_recovery deadCfg gDead1 1 rfl rfl ⟨⟨1, false, [], []⟩, rfl⟩

/-- Claim C6: node identity is by state equality: inserting a state via
`getOrCreate` leaves exactly one node for it whether or not it already
exists (never a duplicate), preserves distinctness of all states, and on
re-encounter keeps the node's data while extending its parent set. -/
theorem c6_node_identity_by_state (g : Graph) (s : Nat) (par : Option Nat)
    (hnd : g.states.Nodup) :
    (g.getOrCreate s par).states.count s = 1 ∧
      (g.getOrCreate s par).states.Nodup ∧
      ∀ n, g.find s = some n →
        (g.getOrCreate s par).states = g.states ∧
          ∃ n2, (g.getOrCreate s par).find s = some n2 ∧
            n2.edges = n.edges ∧ n2.expanded = n.expanded ∧
            (∀ q ∈ n.parents, q ∈ n2.parents) ∧
            ∀ q, par = some q → q ∈ n2.parents := by
  have hnd2 : (g.getOrCreate s par).states.Nodup := getOrCreate_nodup hnd
  have hmem : s ∈ (g.getOrCreate s par).states := by
    cases hf : g.find s with
    | some n =>
      rw [getOrCreate_states_found hf]
      obtain ⟨hst, hm⟩ := find_some hf
      rw [← hst]
      exact List.mem_map_of_mem (fun m => m.state) hm
    | none =>
      rw [getOrCreate_states_new hf]
      simp
  refine ⟨List.count_eq_one_of_mem hnd2 hmem, hnd2, ?_⟩
  intro n hf
  refine ⟨getOrCreate_states_found hf, addParent par n, getOrCreate_find_found hf,
    addParent_edges par n, addParent_expanded par n, addParent_parents_sub par n, ?_⟩
  intro q hq
  subst hq
  exact addParent_parents_new q n

/-- Witness for C6 at a concrete input: re-encountering state 1 of `gTie`
through parent 2 extends its parent set without duplicating the node. -/
theorem c6_witness :
    (gTie.getOrCreate 1 (some 2)).states.count 1 = 1 ∧
      (gTie.getOrCreate 1 (some 2)).states.Nodup ∧
      ∀ n, gTie.find 1 = some n →
        (gTie.getOrCreate 1 (some 2)).states = gTie.states ∧
          ∃ n2, (gTie.getOrCreate 1 (some 2)).find 1 = some n2 ∧
            n2.edges = n.edges ∧ n2.expanded = n.expanded ∧
            (∀ q ∈ n.parents, q ∈ n2.parents) ∧
            ∀ q, (some 2 : Option Nat) = some q → q ∈ n2.parents :=
  c6_node_identity_by_state gTie 1 (some 2)
    (by simp [show gTie.states = [1, 2] from rfl])

/-- Claim C8: determinism and tie-breaking of the Frontier: two solve
calls with the same configuration and root produce identical policies and
explored-state counts (the model is a pure function of its inputs), and
`popBest` is a total order by current value with ties broken by insertion
order: it returns a tip of minimal value such that every tip inserted
before it has a strictly greater value (FIFO among equal values). -/
theorem c8_deterministic_fifo (cfg : AOConfig) (g : Graph) (x r : Nat)
    (h : popBest cfg g = some x) :
    solveFrom cfg initSolver r = solveFrom cfg initSolver r ∧
      getPolicy cfg (solveFrom cfg initSolver r).graph =
        getPolicy cfg (solveFrom cfg initSolver r).graph ∧
      getNbExploredStates (solveFrom cfg initSolver r) =
        getNbExploredStates (solveFrom cfg initSolver r) ∧
      x ∈ tips cfg g ∧
      (∀ y ∈ tips cfg g,
        (valueF cfg g (fuelOf g) x).ble (valueF cfg g (fuelOf g) y) = true) ∧
      ∃ l1 l2, tips cfg g = l1 ++ x :: l2 ∧
        ∀ y ∈ l1, (valueF cfg g (fuelOf g) y).ble (valueF cfg g (fuelOf g) x) = false :=
  ⟨rfl, rfl, rfl, firstMinBy_mem h, firstMinBy_le h, firstMinBy_first h⟩

/-- Witness for C8 at a concrete input: `gTie` holds the tied tips 1 and
2 in this insertion order; the pop returns the earlier one, state 1. -/
theorem c8_witness :
    solveFrom deadCfg initSolver 0 = solveFrom deadCfg initSolver 0 ∧
      getPolicy deadCfg (solveFrom deadCfg initSolver 0).graph =
        getPolicy deadCfg (solveFrom deadCfg initSolver 0).graph ∧
      getNbExploredStates (solveFrom deadCfg initSolver 0) =
        getNbExploredStates (solveFrom deadCfg initSolver 0) ∧
      1 ∈ tips deadCfg gTie ∧
      (∀ y ∈ tips deadCfg gTie,
        (valueF deadCfg gTie (fuelOf gTie) 1).ble (valueF deadCfg gTie (fuelOf gTie) y) = true) ∧
      ∃ l1 l2, tips deadCfg gTie = l1 ++ 1 :: l2 ∧
        ∀ y ∈ l1, (valueF deadCfg gTie (fuelOf gTie) y).ble (valueF deadCfg gTie (fuelOf gTie) 1) = false :=
  c8_deterministic_fifo deadCfg gTie 1 0 rfl

/-- The counterexample to claim C7: with the admissible zero heuristic on
`cexCfg` (whose true cost-to-go is `cexVstar`), the unexpanded root 0 of
the well-formed graph `cexG` is reachable from the root and has value 0,
strictly below the true optimum 5 — so "value ≥ true optimal cost-to-go"
fails; and in the solved `deadCfg` graph the reachable dead-end state 1
has value infinity — so "finite value" fails as well. -/
theorem c7_counterexample :
    consistentB cexCfg cexG = true ∧
      0 ≤ cexCfg.discount ∧
      admissibleOn cexCfg cexG cexVstar ∧
      bellmanOn cexCfg cexG cexVstar ∧
      0 ∈ cexG.states ∧
      (cexVstar 0).ble (valueF cexCfg cexG (fuelOf cexG) 0) = false ∧
      1 ∈ deadG.states ∧
      valueF deadCfg deadG (fuelOf deadG) 1 = .inf :=
  ⟨rfl, by exact zero_le_one,
    by
      intro s hs
      fin_cases hs
      rfl,
    by
      intro s hs
      fin_cases hs
      simp [cexVstar, minQ, firstMinBy, qval, expSum, buildEdges, cexCfg, edgeCost,
        EValue.mulQ, EValue.add],
    by simp [show cexG.states = [0] from rfl],
    rfl,
    by simp [show deadG.states = [0, 1] from rfl],
    rfl⟩

/-- Witness for C7 (amended) at a concrete input: the root 0 of `cexG`
under the admissible zero heuristic. -/
theorem c7_witness :
    (valueF cexCfg cexG 3 0).ble (cexVstar 0) = true ∧
      (solvedF cexCfg cexG 3 0 = true → valueF cexCfg cexG 3 0 = cexVstar 0) :=
  c7_optimistic_lower_bound (show consistentB cexCfg cexG = true from rfl) (by exact zero_le_one)
    (by
      intro s hs
      fin_cases hs
      rfl)
    (by
      intro s hs
      fin_cases hs
      simp [cexVstar, minQ, firstMinBy, qval, expSum, buildEdges, cexCfg, edgeCost,
        EValue.mulQ, EValue.add])
    3 0 (by simp [show cexG.states = [0] from rfl])

/-- The counterexample to claim C9: with `max_tip_expansions = 2` and the
two tied tips of `gTie`, one batch pops two tips and the callback is
invoked before the second pop as well — the trace records a callback
invocation at in-batch pop index 1, not 0, so the callback is invoked
mid-batch, contradicting "never invoked mid-batch (only at batch
boundaries, before SelectTips)". -/
theorem c9_counterexample :
    (expandBatchAux batchCfg 0 2 ⟨gTie, []⟩).1.trace =
        [.callbackInvoked 0, .tipExpanded 0, .callbackInvoked 1, .tipExpanded 1] ∧
      TraceEv.callbackInvoked 1 ∈ (expandBatchAux batchCfg 0 2 ⟨gTie, []⟩).1.trace ∧
      (1 : Nat) ≠ 0 :=
  ⟨rfl,
    by
      rw [show (expandBatchAux batchCfg 0 2 ⟨gTie, []⟩).1.trace =
        [.callbackInvoked 0, .tipExpanded 0, .callbackInvoked 1, .tipExpanded 1] from rfl]
      simp,
    by simp⟩

/-- Claim C9 (amended): the external callback is invoked before each tip
pop — including mid-batch, when more than one tip is popped in a batch —
and whenever it signals stop the solver terminates immediately without
expanding further tips: each batch appends to the trace an alternation of
callback invocations each immediately followed by the expansion it
authorised, ending in an unanswered callback invocation exactly when the
batch stopped (so no expansion ever follows the stop signal). -/
theorem c9_callback_before_each_pop (cfg : AOConfig) (n i : Nat) (st : SolverState) :
    ∃ tr, (expandBatchAux cfg i n st).1.trace = st.trace ++ tr ∧
      goodBatchTrace tr = true ∧
      ((expandBatchAux cfg i n st).2 = true → endsWithCb tr = true) := by
  induction n generalizing i st with
  | zero =>
    refine ⟨[], by simp [expandBatchAux], rfl, ?_⟩
    intro h
    simp [expandBatchAux] at h
  | succ n ih =>
    cases hp : popBest cfg st.graph with
    | none =>
      refine ⟨[], ?_, rfl, ?_⟩
      · rw [expandBatchAux_succ_none hp]
        simp
      · rw [expandBatchAux_succ_none hp]
        simp
    | some s =>
      by_cases hcb : cfg.callback st = true
      · refine ⟨[.callbackInvoked i], ?_, rfl, fun _ => rfl⟩
        rw [expandBatchAux_succ_stop hp hcb]
      · replace hcb : cfg.callback st = false := by simpa using hcb
        obtain ⟨tr2, h1, h2, h3⟩ :=
          ih (i + 1) ⟨expandTip cfg st.graph s, (st.trace ++ [.callbackInvoked i]) ++ [.tipExpanded i]⟩
        refine ⟨.callbackInvoked i :: .tipExpanded i :: tr2, ?_, goodBatchTrace_pair h2, ?_⟩
        · rw [expandBatchAux_succ_go hp hcb, h1]
          simp
        · rw [expandBatchAux_succ_go hp hcb]
          intro hstop
          exact endsWithCb_append [.callbackInvoked i, .tipExpanded i] (h3 hstop)

/-- Witness for C9 (amended) at a concrete input: the two-pop batch over
`gTie`. -/
theorem c9_witness :
    ∃ tr, (expandBatchAux batchCfg 0 2 ⟨gTie, []⟩).1.trace = (⟨gTie, []⟩ : SolverState).trace ++ tr ∧
      goodBatchTrace tr = true ∧
      ((expandBatchAux batchCfg 0 2 ⟨gTie, []⟩).2 = true → endsWithCb tr = true) :=
  c9_callback_before_each_pop batchCfg 2 0 ⟨gTie, []⟩

end AO
